import Mathlib

/-! Verification of the psycopg2_client repository: a shallow embedding of
`psycopg2_client.py` (query registry lookup, template preprocessing,
literal substitution, batched updates with output-parameter capture,
session exit cleanup and the partial-fetch CSV streamer), with theorems
settling the specification claims against it.

Strings are modelled as `List Char`; Python dicts as association lists
with distinct keys; machine-level concerns (wire protocol, the driver)
are abstracted into explicit execution environments.
-/

set_option autoImplicit false

namespace PgClient

/-- Python strings are modelled as lists of characters. -/
abbrev Str := List Char

/-- The single-quote character (code point 39). -/
def sq : Char := Char.ofNat 39

/-- The double-quote character (code point 34). -/
def dq : Char := Char.ofNat 34

/-- The left-brace character (code point 123). -/
def lbr : Char := Char.ofNat 123

/-- The right-brace character (code point 125). -/
def rbr : Char := Char.ofNat 125

/-- Values a caller may bind to a query parameter, mirroring the types
`escape_literal` in `_get_query_with_value` distinguishes: `str`,
`datetime`, `list` (modelled with integer elements), `None`, and the
fall-through cases `int` / `bool` which Python renders with `str()`. -/
inductive PyVal where
  | str (s : Str)
  | int (n : Int)
  | bool (b : Bool)
  | datetime (y mo d h mi sec us : Nat)
  | list (xs : List Int)
  | none
deriving DecidableEq, Repr

/-- Python truthiness (`if params.get(name):`-style tests): empty strings,
zero, `False`, empty lists and `None` are falsy. -/
def PyVal.truthy : PyVal → Bool
  | .str s => !s.isEmpty
  | .int n => n != 0
  | .bool b => b
  | .datetime _ _ _ _ _ _ _ => true
  | .list xs => !xs.isEmpty
  | .none => false

/-- A Python dict, modelled as an association list (keys distinct). -/
abbrev Assoc (β : Type) := List (Str × β)

/-- Python `d.get(k)`: first binding of the key, if any. -/
def assocLookup {β : Type} (d : Assoc β) (k : Str) : Option β :=
  match d with
  | [] => Option.none
  | (k0, v0) :: rest => if k0 = k then some v0 else assocLookup rest k

/-- Python `k in d`: key membership test. -/
def assocHasKey {β : Type} (d : Assoc β) (k : Str) : Bool :=
  match d with
  | [] => false
  | (k0, _) :: rest => k0 = k || assocHasKey rest k

/-- Python `d[k] = v` on a dict whose key `k` already exists: overwrite the value
stored under `k`, leaving the key set and its order unchanged. -/
def assocSet {β : Type} : Assoc β → Str → β → Assoc β
  | [], _, _ => []
  | (k0, v0) :: rest, k, v =>
    if k0 = k then (k0, v) :: assocSet rest k v else (k0, v0) :: assocSet rest k v

/-- The output-parameter copy loop of `updates_by_param`
(psycopg2_client.py lines 411-413):
`for k, v in row.items(): if k in params_out: params_out[k] = v`. -/
def copyOut (paramsOut : Assoc PyVal) : Assoc PyVal → Assoc PyVal
  | [] => paramsOut
  | (k, v) :: rest =>
    copyOut (if assocHasKey paramsOut k then assocSet paramsOut k v else paramsOut) rest

theorem assocSet_keys {β : Type} (d : Assoc β) (k : Str) (v : β) :
    (assocSet d k v).map Prod.fst = d.map Prod.fst := by
  induction d with
  | nil => rfl
  | cons p rest ih =>
    obtain ⟨k0, v0⟩ := p
    by_cases h : k0 = k <;> simp [assocSet, h, ih]

/-- Function `copyOut` never changes the key list of `params_out`. -/
theorem copyOut_keys (po row : Assoc PyVal) :
    (copyOut po row).map Prod.fst = po.map Prod.fst := by
  induction row generalizing po with
  | nil => rfl
  | cons kv rest ih =>
    obtain ⟨k, v⟩ := kv
    by_cases h : assocHasKey po k = true <;>
      simp [copyOut, h, ih, assocSet_keys]

theorem assocLookup_set_self {β : Type} (d : Assoc β) (k : Str) (v : β)
    (h : assocHasKey d k = true) : assocLookup (assocSet d k v) k = some v := by
  induction d with
  | nil => simp [assocHasKey] at h
  | cons p rest ih =>
    obtain ⟨k0, v0⟩ := p
    by_cases hk : k0 = k
    · simp [assocSet, assocLookup, hk]
    · simp [assocHasKey, hk] at h
      simp [assocSet, assocLookup, hk, ih h]

theorem assocLookup_set_other {β : Type} (d : Assoc β) (k k2 : Str) (v : β)
    (h : k ≠ k2) : assocLookup (assocSet d k v) k2 = assocLookup d k2 := by
  induction d with
  | nil => rfl
  | cons p rest ih =>
    obtain ⟨k0, v0⟩ := p
    by_cases hk : k0 = k
    · have hne : k0 ≠ k2 := hk ▸ h
      simp [assocSet, assocLookup, hk, hne, ih, h]
    · by_cases h2 : k0 = k2 <;>
        simp [assocSet, assocLookup, hk, h2, ih, Ne.symm h]

theorem assocHasKey_set {β : Type} (d : Assoc β) (k k1 : Str) (v : β) :
    assocHasKey (assocSet d k v) k1 = assocHasKey d k1 := by
  induction d with
  | nil => rfl
  | cons p rest ih =>
    obtain ⟨k0, v0⟩ := p
    by_cases hk : k0 = k <;> simp [assocSet, assocHasKey, hk, ih]

theorem assocHasKey_iff {β : Type} (d : Assoc β) (k : Str) :
    assocHasKey d k = true ↔ k ∈ d.map Prod.fst := by
  induction d with
  | nil => simp [assocHasKey]
  | cons p rest ih =>
    obtain ⟨k0, v0⟩ := p
    simp only [assocHasKey, List.map_cons, List.mem_cons, Bool.or_eq_true,
      decide_eq_true_eq, ih]
    exact ⟨fun h => h.imp Eq.symm id, fun h => h.imp Eq.symm id⟩

theorem copyOut_lookup (row : Assoc PyVal) : ∀ po : Assoc PyVal,
    (row.map Prod.fst).Nodup → ∀ k : Str,
    assocLookup (copyOut po row) k =
      if assocHasKey po k && assocHasKey row k then assocLookup row k
      else assocLookup po k := by
  induction row with
  | nil => intro po _ k; simp [copyOut, assocHasKey]
  | cons kv rest ih =>
    obtain ⟨k0, v0⟩ := kv
    intro po hnd k
    simp only [List.map_cons, List.nodup_cons] at hnd
    have hk0 : assocHasKey rest k0 = false := by
      cases hEq : assocHasKey rest k0 with
      | false => rfl
      | true => exact absurd ((assocHasKey_iff _ _).mp hEq) hnd.1
    show assocLookup
        (copyOut (if assocHasKey po k0 then assocSet po k0 v0 else po) rest) k = _
    by_cases hkk : k0 = k
    · subst hkk
      by_cases hpo : assocHasKey po k0 = true
      · rw [if_pos hpo, ih (assocSet po k0 v0) hnd.2 k0]
        simp [assocHasKey_set, hk0, assocLookup_set_self po k0 v0 hpo,
          assocHasKey, assocLookup, hpo]
      · simp only [Bool.not_eq_true] at hpo
        rw [if_neg (by simp [hpo]), ih po hnd.2 k0]
        simp [hk0, assocHasKey, assocLookup, hpo]
    · by_cases hpo : assocHasKey po k0 = true
      · rw [if_pos hpo, ih (assocSet po k0 v0) hnd.2 k]
        simp [assocHasKey_set, assocLookup_set_other po k0 k v0 hkk,
          assocHasKey, assocLookup, hkk]
      · simp only [Bool.not_eq_true] at hpo
        rw [if_neg (by simp [hpo]), ih po hnd.2 k]
        simp [assocHasKey, assocLookup, hkk]

/-- C2: after a `writeMany` item with non-empty pre-declared `outParams`
executes and its statement returns a row, every returned column whose name is
a key already present in `outParams` has its value copied over the
placeholder, and no key not already present in `outParams` is ever added:
the key list is unchanged, and each key's value is the row's value when the
row has that column, the original placeholder otherwise. -/
theorem claim_C2 (po row : Assoc PyVal) (hnd : (row.map Prod.fst).Nodup) :
    (copyOut po row).map Prod.fst = po.map Prod.fst ∧
    ∀ k : Str, assocLookup (copyOut po row) k =
      if assocHasKey po k && assocHasKey row k then assocLookup row k
      else assocLookup po k :=
  ⟨copyOut_keys po row, copyOut_lookup row po hnd⟩

/-- Witness for C2 at the spec's own example: a returned row with column
`user_name = "Kim"` and a pre-declared `{"user_name": ""}` yields
`{"user_name": "Kim"}`, and the extra returned column `user_id` is not added. -/
theorem claim_C2_witness :
    assocLookup
        (copyOut [(("user_name").toList, PyVal.str [])]
          [(("user_name").toList, PyVal.str (("Kim").toList)),
           (("user_id").toList, PyVal.str (("gildong.hong").toList))])
        (("user_name").toList) = some (PyVal.str (("Kim").toList)) ∧
      (copyOut [(("user_name").toList, PyVal.str [])]
          [(("user_name").toList, PyVal.str (("Kim").toList)),
           (("user_id").toList, PyVal.str (("gildong.hong").toList))]).map Prod.fst
        = [("user_name").toList] := by
  have h := claim_C2 [(("user_name").toList, PyVal.str [])]
    [(("user_name").toList, PyVal.str (("Kim").toList)),
     (("user_id").toList, PyVal.str (("gildong.hong").toList))] (by decide)
  constructor
  · rw [h.2 (("user_name").toList)]; decide
  · rw [h.1]; rfl

/-! Directive preprocessor (conditional blocks), spec-modelled.

The implementation of `get_conditional` lives in `psycopg2_client_util.py`,
which is not among the repository's source files (psycopg2_client.py only
imports and calls it). The definitions below are therefore modelled from
the spec, §4.2. -/

/-- Whitespace characters as matched by Python's `str.strip` / `\s`. -/
def isSpaceChar (c : Char) : Bool :=
  c = ' ' || c = Char.ofNat 9 || c = Char.ofNat 10 || c = Char.ofNat 13 ||
    c = Char.ofNat 11 || c = Char.ofNat 12

/-- Strip leading and trailing whitespace (Python `str.strip`). -/
def trimChars (l : Str) : Str :=
  ((l.dropWhile isSpaceChar).reverse.dropWhile isSpaceChar).reverse

/-- ASCII lower-casing, used for the spec's case-insensitive directive
keyword matching. -/
def asciiLower (c : Char) : Char :=
  if 'A' ≤ c ∧ c ≤ 'Z' then Char.ofNat (c.toNat + 32) else c

/-- A conditional-block directive line: `#if name`, `#elif name`, `#else`
or `#endif`. -/
inductive Directive where
  | dIf (name : Str)
  | dElif (name : Str)
  | dElse
  | dEndif
deriving DecidableEq, Repr

/-- Modelled from the spec: recognise a directive line of the
`get_conditional` mini-language (§4.2), matching the keyword
case-insensitively on the stripped line and taking the condition name from
the rest of the line. Non-directive lines yield `none`. -/
def parseDirective (line : Str) : Option Directive :=
  let t := trimChars line
  let low := t.map asciiLower
  if low = ("#else").toList then some .dElse
  else if low = ("#endif").toList then some .dEndif
  else if (("#elif").toList).isPrefixOf low then some (.dElif (trimChars (t.drop 5)))
  else if (("#if").toList).isPrefixOf low then some (.dIf (trimChars (t.drop 3)))
  else Option.none

/-- The condition test of a `#if name` / `#elif name` clause: the named
parameter must be present in the supplied parameter set and truthy. -/
def truthyParam (params : Assoc PyVal) (name : Str) : Bool :=
  match assocLookup params name with
  | some v => v.truthy
  | Option.none => false

/-- State of the line-by-line conditional rewriter: outside any block,
inside a block still seeking a branch whose condition holds, inside the
selected branch, or skipping the remaining branches after the selected one. -/
inductive CMode where
  | outside
  | seeking
  | keeping
  | skipRest
deriving DecidableEq, Repr

/-- Modelled from the spec: one step of the conditional rewriter — the next
state and the lines (zero or one) emitted for this input line. Directive
lines are never emitted; a body line is emitted exactly when the rewriter is
outside a block or inside the selected branch. -/
def condStep (params : Assoc PyVal) (m : CMode) (line : Str) : CMode × List Str :=
  match parseDirective line with
  | Option.none =>
    match m with
    | .outside => (.outside, [line])
    | .keeping => (.keeping, [line])
    | .seeking => (.seeking, [])
    | .skipRest => (.skipRest, [])
  | some (.dIf n) =>
    match m with
    | .outside => (if truthyParam params n then .keeping else .seeking, [])
    | m0 => (m0, [])
  | some (.dElif n) =>
    match m with
    | .seeking => (if truthyParam params n then .keeping else .seeking, [])
    | .keeping => (.skipRest, [])
    | m0 => (m0, [])
  | some .dElse =>
    match m with
    | .seeking => (.keeping, [])
    | .keeping => (.skipRest, [])
    | m0 => (m0, [])
  | some .dEndif => (.outside, [])

/-- Run the conditional rewriter over a list of lines from a given state. -/
def runCond (params : Assoc PyVal) : CMode → List Str → List Str
  | _, [] => []
  | m, l :: ls =>
    (condStep params m l).2 ++ runCond params (condStep params m l).1 ls

/-- Modelled from the spec: `get_conditional(qry_str, params)` of
`psycopg2_client_util.py` (absent from src/), per §4.2 — resolve the
`#if/#elif/#else/#endif` blocks of a template (given as its list of lines)
against the supplied parameters, keeping only the selected branch's body
and stripping every directive line. -/
def get_conditional (qry : List Str) (params : Assoc PyVal) : List Str :=
  runCond params .outside qry

theorem runCond_emit (params : Assoc PyVal) (m : CMode)
    (hm : m = .outside ∨ m = .keeping) (ls rest : List Str)
    (h : ∀ l ∈ ls, parseDirective l = Option.none) :
    runCond params m (ls ++ rest) = ls ++ runCond params m rest := by
  induction ls with
  | nil => rfl
  | cons l ls ih =>
    have hl : parseDirective l = Option.none := h l (by simp)
    have hrec := ih (fun x hx => h x (by simp [hx]))
    rcases hm with hm | hm <;> subst hm <;>
      simp [runCond, condStep, hl, hrec]

theorem runCond_drop (params : Assoc PyVal) (m : CMode)
    (hm : m = .seeking ∨ m = .skipRest) (ls rest : List Str)
    (h : ∀ l ∈ ls, parseDirective l = Option.none) :
    runCond params m (ls ++ rest) = runCond params m rest := by
  induction ls with
  | nil => rfl
  | cons l ls ih =>
    have hl : parseDirective l = Option.none := h l (by simp)
    have hrec := ih (fun x hx => h x (by simp [hx]))
    rcases hm with hm | hm <;> subst hm <;>
      simp [runCond, condStep, hl, hrec]

theorem runCond_sfx (params : Assoc PyVal) (sfx : List Str)
    (hs : ∀ l ∈ sfx, parseDirective l = Option.none) :
    runCond params .outside sfx = sfx := by
  have h := runCond_emit params .outside (Or.inl rfl) sfx [] hs
  simpa [runCond] using h

/-- C5: for a template containing a conditional block `#if A` … `#else` …
`#endif` (directive lines recognised by `parseDirective`, the bodies and the
surrounding text directive-free), preprocessing with `use_conditional`
enabled keeps only the `#if` branch's text when parameter `A` is present and
truthy, keeps only the `#else` branch's text when `A` is falsy or absent
(`truthyParam` is false in both cases), and no directive line ever appears
in the output. -/
theorem claim_C5 (params : Assoc PyVal) (A lIf lElse lEnd : Str)
    (pfx ifBody elseBody sfx : List Str)
    (hIf : parseDirective lIf = some (.dIf A))
    (hElse : parseDirective lElse = some .dElse)
    (hEnd : parseDirective lEnd = some .dEndif)
    (hp : ∀ l ∈ pfx, parseDirective l = Option.none)
    (hi : ∀ l ∈ ifBody, parseDirective l = Option.none)
    (he : ∀ l ∈ elseBody, parseDirective l = Option.none)
    (hs : ∀ l ∈ sfx, parseDirective l = Option.none) :
    get_conditional (pfx ++ lIf :: (ifBody ++ lElse :: (elseBody ++ lEnd :: sfx)))
        params = pfx ++ (if truthyParam params A then ifBody else elseBody) ++ sfx ∧
    ∀ l ∈ get_conditional
        (pfx ++ lIf :: (ifBody ++ lElse :: (elseBody ++ lEnd :: sfx))) params,
      parseDirective l = Option.none := by
  have key : get_conditional
      (pfx ++ lIf :: (ifBody ++ lElse :: (elseBody ++ lEnd :: sfx))) params =
      pfx ++ (if truthyParam params A then ifBody else elseBody) ++ sfx := by
    show runCond params .outside _ = _
    rw [runCond_emit params .outside (Or.inl rfl) pfx _ hp]
    by_cases ht : truthyParam params A = true
    · simp only [runCond, condStep, hIf, ht, if_pos]
      rw [List.nil_append,
        runCond_emit params .keeping (Or.inr rfl) ifBody _ hi]
      simp only [runCond, condStep, hElse]
      rw [List.nil_append,
        runCond_drop params .skipRest (Or.inr rfl) elseBody _ he]
      simp only [runCond, condStep, hEnd]
      rw [List.nil_append, runCond_sfx params sfx hs]
      simp [List.append_assoc]
    · rw [Bool.not_eq_true] at ht
      simp only [runCond, condStep, hIf, ht, Bool.false_eq_true, if_neg,
        not_false_iff]
      rw [List.nil_append,
        runCond_drop params .seeking (Or.inl rfl) ifBody _ hi]
      simp only [runCond, condStep, hElse]
      rw [List.nil_append,
        runCond_emit params .keeping (Or.inr rfl) elseBody _ he]
      simp only [runCond, condStep, hEnd]
      rw [List.nil_append, runCond_sfx params sfx hs]
      simp [List.append_assoc]
  refine ⟨key, ?_⟩
  intro l hl
  rw [key] at hl
  simp only [List.mem_append] at hl
  rcases hl with (hl | hl) | hl
  · exact hp l hl
  · by_cases ht : truthyParam params A = true
    · rw [if_pos ht] at hl; exact hi l hl
    · rw [if_neg ht] at hl; exact he l hl
  · exact hs l hl

/-- Witness for C5 on the repository's own `read_schema` template with
`is_table` bound to `True`: the `#if` branch is kept, the `#else` branch and
all directive lines are stripped. -/
theorem claim_C5_witness :
    get_conditional
        [("SELECT  table_schema, table_name").toList,
         ("#if is_table").toList,
         ("FROM    information_schema.tables").toList,
         ("#else").toList,
         ("FROM    information_schema.columns").toList,
         ("#endif").toList,
         ("WHERE   table_name ILIKE %(search_percent)s").toList]
        [(("is_table").toList, PyVal.bool true)] =
      [("SELECT  table_schema, table_name").toList,
       ("FROM    information_schema.tables").toList,
       ("WHERE   table_name ILIKE %(search_percent)s").toList] := by
  have h := claim_C5 [(("is_table").toList, PyVal.bool true)]
    (("is_table").toList) (("#if is_table").toList) (("#else").toList)
    (("#endif").toList)
    [("SELECT  table_schema, table_name").toList]
    [("FROM    information_schema.tables").toList]
    [("FROM    information_schema.columns").toList]
    [("WHERE   table_name ILIKE %(search_percent)s").toList]
    (by decide) (by decide) (by decide) (by decide) (by decide) (by decide)
    (by decide)
  have h1 := h.1
  simp only [List.cons_append, List.nil_append, List.singleton_append] at h1
  rw [h1]
  decide

/-! Bilingual alias selection (`_replace_en_ko_column_alias`).

The source applies `re.sub` with pattern
`(?P<ws>\s)"(?P<en>[^"]+)\|(?P<ko>[^"]+)"`: a whitespace character, a
double-quoted run of non-quote characters containing a pipe (split greedily
at the last pipe leaving both sides non-empty), replaced by the whitespace
plus the quoted `en` or `ko` part. The scanner below mirrors the regex
engine's left-to-right scan, resuming after each match. -/

/-- Split a string at the first double quote: `some (run, after)` with the
input equal to `run ++ dq :: after` and no quote inside `run`. -/
def splitAtQuote : Str → Option (Str × Str)
  | [] => Option.none
  | c :: rest =>
    if c = dq then some ([], rest)
    else (splitAtQuote rest).map (fun p => (c :: p.1, p.2))

/-- Helper for `splitLastPipe`: scan the reversed run for the first pipe
(last pipe of the original) that leaves non-empty text on both sides. -/
def splitLastPipeAux : Str → Str → Option (Str × Str)
  | _, [] => Option.none
  | koAcc, c :: restRev =>
    if c = '|' && !koAcc.isEmpty && !restRev.isEmpty then
      some (restRev.reverse, koAcc)
    else splitLastPipeAux (c :: koAcc) restRev

/-- Split a quoted run at its last pipe that has at least one character on
each side — the split the greedy groups `[^"]+\|[^"]+` of the source's
pattern produce. -/
def splitLastPipe (run : Str) : Option (Str × Str) :=
  splitLastPipeAux [] run.reverse

/-- Fuel-driven scan of `_replace_en_ko_column_alias`: find a whitespace
character followed by a quoted pipe-containing run, replace it by the
chosen label, resume after the closing quote. The fuel only bounds the
recursion; `replace_en_ko_column_alias` supplies enough for the whole scan. -/
def replaceEnKoF : Nat → Str → Bool → Str
  | 0, s, _ => s
  | _ + 1, [], _ => []
  | f + 1, c :: rest, en =>
    if isSpaceChar c then
      match rest with
      | q :: afterQuote =>
        if q = dq then
          match splitAtQuote afterQuote with
          | some (run, afterClose) =>
            match splitLastPipe run with
            | some (enp, kop) =>
              c :: dq :: ((if en then enp else kop) ++ dq :: replaceEnKoF f afterClose en)
            | Option.none => c :: replaceEnKoF f rest en
          | Option.none => c :: replaceEnKoF f rest en
        else c :: replaceEnKoF f rest en
      | [] => [c]
    else c :: replaceEnKoF f rest en

/-- Model of `_replace_en_ko_column_alias(qry_str, en)` (psycopg2_client.py lines
139-152): rewrite every bilingual alias to its `en` or `ko` label. -/
def replace_en_ko_column_alias (qry : Str) (en : Bool) : Str :=
  replaceEnKoF qry.length qry en

/-- The call-site gate (psycopg2_client.py lines 212-213):
`if self.db_settings.use_en_ko_column_alias and isinstance(en, bool)` —
the rewrite runs only when the feature flag is on and `en` is an actual
boolean; with `en=None` the query is left unchanged. -/
def applyEnKoAlias (useFlag : Bool) (en : Option Bool) (qry : Str) : Str :=
  match en with
  | some b => if useFlag then replace_en_ko_column_alias qry b else qry
  | Option.none => qry

theorem splitAtQuote_append (run after : Str) (h : dq ∉ run) :
    splitAtQuote (run ++ dq :: after) = some (run, after) := by
  induction run with
  | nil => simp [splitAtQuote]
  | cons c rest ih =>
    have hc : c ≠ dq := fun hc => h (hc ▸ List.mem_cons_self c rest)
    have hr : dq ∉ rest := fun hm => h (List.mem_cons_of_mem c hm)
    simp [splitAtQuote, hc, ih hr]

theorem splitAtQuote_some (l run after : Str)
    (h : splitAtQuote l = some (run, after)) : l = run ++ dq :: after := by
  induction l generalizing run after with
  | nil => simp [splitAtQuote] at h
  | cons c rest ih =>
    by_cases hc : c = dq
    · simp [splitAtQuote, hc] at h
      rw [hc, h.1, h.2]; rfl
    · simp only [splitAtQuote, hc, if_neg, not_false_iff, Option.map_eq_some'] at h
      obtain ⟨⟨r0, a0⟩, h0, heq⟩ := h
      simp only [Prod.mk.injEq] at heq
      rw [← heq.1, ← heq.2, ih r0 a0 h0]
      rfl

theorem splitLastPipeAux_append (r : Str) (hr : r ≠ []) :
    ∀ (t koAcc : Str), (∀ c ∈ t, c ≠ '|') → t.reverse ++ koAcc ≠ [] →
    splitLastPipeAux koAcc (t ++ '|' :: r) = some (r.reverse, t.reverse ++ koAcc) := by
  intro t
  induction t with
  | nil =>
    intro koAcc _ hne
    simp only [List.reverse_nil, List.nil_append] at hne ⊢
    have h1 : (!koAcc.isEmpty) = true := by
      cases koAcc with
      | nil => exact absurd rfl hne
      | cons _ _ => rfl
    have h2 : (!r.isEmpty) = true := by
      cases r with
      | nil => exact absurd rfl hr
      | cons _ _ => rfl
    simp [splitLastPipeAux, h1, h2]
  | cons c t' ih =>
    intro koAcc hpipe _
    have hc : (c = '|') = False := by
      simp [hpipe c (List.mem_cons_self c t')]
    have hstep : splitLastPipeAux koAcc ((c :: t') ++ '|' :: r) =
        splitLastPipeAux (c :: koAcc) (t' ++ '|' :: r) := by
      show splitLastPipeAux koAcc (c :: (t' ++ '|' :: r)) = _
      simp [splitLastPipeAux, hc]
    rw [hstep,
      ih (c :: koAcc) (fun x hx => hpipe x (List.mem_cons_of_mem c hx)) (by simp)]
    simp

theorem splitLastPipe_append (X Y : Str) (hX : X ≠ []) (hY : Y ≠ [])
    (hpY : '|' ∉ Y) : splitLastPipe (X ++ '|' :: Y) = some (X, Y) := by
  show splitLastPipeAux [] (X ++ '|' :: Y).reverse = _
  have hrev : (X ++ '|' :: Y).reverse = Y.reverse ++ '|' :: X.reverse := by
    simp [List.reverse_append]
  rw [hrev, splitLastPipeAux_append X.reverse (by simpa) Y.reverse []
    (fun c hc => fun he => hpY (he ▸ (List.mem_reverse).mp hc))
    (by simpa using hY)]
  simp

theorem replaceEnKoF_noQuote (en : Bool) (s : Str) (h : dq ∉ s) :
    ∀ f, replaceEnKoF f s en = s := by
  induction s with
  | nil => intro f; cases f <;> rfl
  | cons c rest ih =>
    intro f
    cases f with
    | zero => rfl
    | succ f =>
      have hrest : dq ∉ rest := fun hm => h (List.mem_cons_of_mem c hm)
      by_cases hsp : isSpaceChar c = true
      · cases rest with
        | nil => simp [replaceEnKoF, hsp]
        | cons q after =>
          have hq : q ≠ dq := fun he =>
            hrest (he ▸ List.mem_cons_self q after)
          simp [replaceEnKoF, hsp, hq, ih hrest]
      · simp [replaceEnKoF, hsp, ih hrest]

theorem replaceEnKoF_fuelIrrel (en : Bool) :
    ∀ (f : Nat) (s : Str) (f' : Nat), s.length ≤ f → s.length ≤ f' →
    replaceEnKoF f s en = replaceEnKoF f' s en := by
  intro f
  induction f with
  | zero =>
    intro s f' hf _
    have : s = [] := List.eq_nil_of_length_eq_zero (Nat.le_zero.mp hf)
    subst this
    cases f' <;> rfl
  | succ f ih =>
    intro s f' hf hf'
    cases s with
    | nil => cases f' <;> rfl
    | cons c rest =>
      cases f' with
      | zero => simp at hf'
      | succ g =>
        have hrest : rest.length ≤ f := by simp at hf; omega
        have hrest' : rest.length ≤ g := by simp at hf'; omega
        by_cases hsp : isSpaceChar c = true
        · cases rest with
          | nil => simp [replaceEnKoF, hsp]
          | cons q after =>
            by_cases hq : q = dq
            · subst hq
              cases hsq : splitAtQuote after with
              | none =>
                simp [replaceEnKoF, hsp, hsq, ih (dq :: after) g hrest hrest']
              | some p =>
                obtain ⟨run, afterClose⟩ := p
                have hdecomp := splitAtQuote_some after run afterClose hsq
                have hlen1 : afterClose.length ≤ f := by
                  rw [hdecomp] at hrest; simp [List.length_append] at hrest; omega
                have hlen2 : afterClose.length ≤ g := by
                  rw [hdecomp] at hrest'; simp [List.length_append] at hrest'; omega
                cases hsl : splitLastPipe run with
                | none =>
                  simp [replaceEnKoF, hsp, hsq, hsl, ih (dq :: after) g hrest hrest']
                | some p2 =>
                  obtain ⟨enp, kop⟩ := p2
                  simp [replaceEnKoF, hsp, hsq, hsl, ih afterClose g hlen1 hlen2]
            · simp [replaceEnKoF, hsp, hq, ih (q :: after) g hrest hrest']
        · simp [replaceEnKoF, hsp, ih rest g hrest hrest']

theorem replaceEnKoF_append (en : Bool) (pfx : Str) :
    ∀ (s : Str), dq ∉ pfx → s.head? ≠ some dq →
    ∀ (f g : Nat), (pfx ++ s).length ≤ f → s.length ≤ g →
    replaceEnKoF f (pfx ++ s) en = pfx ++ replaceEnKoF g s en := by
  induction pfx with
  | nil =>
    intro s _ _ f g hf hg
    simpa using replaceEnKoF_fuelIrrel en f s g (by simpa using hf) hg
  | cons c pfx' ih =>
    intro s hq hsh f g hf hg
    cases f with
    | zero => simp at hf
    | succ f =>
      have hq' : dq ∉ pfx' := fun hm => hq (List.mem_cons_of_mem c hm)
      have hf' : (pfx' ++ s).length ≤ f := by
        simpa using Nat.le_of_succ_le_succ (by simpa using hf)
      have hrec := ih s hq' hsh f g hf' hg
      by_cases hsp : isSpaceChar c = true
      · cases pfx' with
        | nil =>
          cases s with
          | nil => cases g <;> simp [replaceEnKoF, hsp]
          | cons q after =>
            have hqd : q ≠ dq := by
              intro he; exact hsh (by rw [he]; rfl)
            simp only [List.nil_append] at hrec
            simp [replaceEnKoF, hsp, hqd, hrec]
        | cons p2 prest =>
          have hp2 : p2 ≠ dq := fun he =>
            hq (List.mem_cons_of_mem c (he ▸ List.mem_cons_self p2 prest))
          simp [replaceEnKoF, hsp, hp2]
          exact hrec
      · simp [replaceEnKoF, hsp, hrec]

/-- C6: for a template containing a bilingual alias token `"X|Y"` (a quoted
column alias, preceded by whitespace, with two pipe-free non-empty labels),
preprocessing with `use_en_ko_column_alias` enabled rewrites the token to
`"X"` when `en=true` and to `"Y"` when `en=false`, and when the flag is
absent (`en=None`, not a boolean) the original `"X|Y"` token is left
unchanged. -/
theorem claim_C6 (pfx sfx X Y : Str) (ws : Char) (en : Bool)
    (hws : isSpaceChar ws = true) (hqp : dq ∉ pfx) (hqs : dq ∉ sfx)
    (hX : X ≠ []) (hY : Y ≠ []) (hpX : '|' ∉ X) (hqX : dq ∉ X)
    (hpY : '|' ∉ Y) (hqY : dq ∉ Y) :
    applyEnKoAlias true (some en)
        (pfx ++ ws :: dq :: ((X ++ '|' :: Y) ++ dq :: sfx)) =
      pfx ++ ws :: dq :: ((if en then X else Y) ++ dq :: sfx) ∧
    ∀ u : Bool, applyEnKoAlias u Option.none
        (pfx ++ ws :: dq :: ((X ++ '|' :: Y) ++ dq :: sfx)) =
      pfx ++ ws :: dq :: ((X ++ '|' :: Y) ++ dq :: sfx) := by
  constructor
  · show replace_en_ko_column_alias _ en = _
    show replaceEnKoF _ _ en = _
    have hws' : (ws :: dq :: ((X ++ '|' :: Y) ++ dq :: sfx)).head? ≠ some dq := by
      intro h
      simp only [List.head?_cons, Option.some.injEq] at h
      rw [h] at hws
      exact absurd hws (by decide)
    rw [replaceEnKoF_append en pfx (ws :: dq :: ((X ++ '|' :: Y) ++ dq :: sfx))
      hqp hws' _ (ws :: dq :: ((X ++ '|' :: Y) ++ dq :: sfx)).length
      (Nat.le_refl _) (Nat.le_refl _)]
    have hrun : dq ∉ X ++ '|' :: Y := by
      intro hm
      rcases List.mem_append.mp hm with h | h
      · exact hqX h
      · rcases List.mem_cons.mp h with h | h
        · exact absurd h (by decide)
        · exact hqY h
    have hsq := splitAtQuote_append (X ++ '|' :: Y) sfx hrun
    have hsl := splitLastPipe_append X Y hX hY hpY
    simp only [List.append_assoc, List.cons_append] at hsq
    simp only [List.length_cons]
    simp [replaceEnKoF, hws, hsq, hsl, replaceEnKoF_noQuote en sfx hqs]
  · intro u; rfl

/-- Witness for C6 at the repository's own example `tbl.obj_nm
"File Name|파일명"`: with `en=true` the alias resolves to `"File Name"`,
with `en=false` to `"파일명"`, and with the flag absent the token is kept. -/
theorem claim_C6_witness :
    applyEnKoAlias true (some true)
        (("tbl.obj_nm").toList ++ ' ' :: dq ::
          ((("File Name").toList ++ '|' :: ("파일명").toList) ++ dq :: [])) =
      ("tbl.obj_nm").toList ++ ' ' :: dq :: (("File Name").toList ++ dq :: []) ∧
    applyEnKoAlias true Option.none
        (("tbl.obj_nm").toList ++ ' ' :: dq ::
          ((("File Name").toList ++ '|' :: ("파일명").toList) ++ dq :: [])) =
      ("tbl.obj_nm").toList ++ ' ' :: dq ::
        ((("File Name").toList ++ '|' :: ("파일명").toList) ++ dq :: []) := by
  have h := claim_C6 (("tbl.obj_nm").toList) [] (("File Name").toList)
    (("파일명").toList) ' ' true (by decide) (by decide) (by decide)
    (by decide) (by decide) (by decide) (by decide) (by decide) (by decide)
  exact ⟨h.1, h.2 true⟩

/-! Literal substitution (`_get_query_with_value`).

`_get_query_with_value` (psycopg2_client.py lines 107-137) renders the
query with every bound placeholder `%(name)s` replaced by an escaped
literal, then unescapes `%%`, and the brace pairs used by Python
formatting. `sql.SQL(qry_str).as_string(conn)` is the identity on a plain
template string and is modelled as such. -/

/-- Python `find in s` (substring containment). -/
def containsSub : Str → Str → Bool
  | [], find => find.isEmpty
  | c :: rest, find => find.isPrefixOf (c :: rest) || containsSub rest find

/-- Fuel-driven Python `s.replace(find, repl)`: scan left to right, replace
each non-overlapping occurrence, resume after it. `pyReplace` supplies
enough fuel for the whole scan (`find` is never empty at the call sites). -/
def pyReplaceF : Nat → Str → Str → Str → Str
  | 0, s, _, _ => s
  | _ + 1, [], _, _ => []
  | f + 1, c :: rest, find, repl =>
    if !find.isEmpty && find.isPrefixOf (c :: rest) then
      repl ++ pyReplaceF f ((c :: rest).drop find.length) find repl
    else c :: pyReplaceF f rest find repl

/-- Python `s.replace(find, repl)`. -/
def pyReplace (s find repl : Str) : Str := pyReplaceF s.length s find repl

/-- Decimal digits of a natural number, zero-padded to width `w`. -/
def padNum (w n : Nat) : Str :=
  let d := Nat.toDigits 10 n
  List.replicate (w - d.length) '0' ++ d

/-- Python `str` of an `int`. -/
def intChars (n : Int) : Str :=
  if n < 0 then '-' :: Nat.toDigits 10 n.natAbs else Nat.toDigits 10 n.toNat

/-- Python `str` of a list of ints: `[1, 2, 3]`. -/
def listIntChars (xs : List Int) : Str :=
  ('[' :: List.intercalate ((", ").toList) (xs.map intChars)) ++ [']']

/-- Python `value.strftime` with format `%Y-%m-%d %H:%M:%S.%f`. -/
def dtChars (y mo d h mi s us : Nat) : Str :=
  padNum 4 y ++ ('-' :: padNum 2 mo) ++ ('-' :: padNum 2 d) ++
    (' ' :: padNum 2 h) ++ (':' :: padNum 2 mi) ++ (':' :: padNum 2 s) ++
    ('.' :: padNum 6 us)

/-- Python `str(value)` for the fall-through branch of `escape_literal`. -/
def pyStr : PyVal → Str
  | .str s => s
  | .int n => intChars n
  | .bool b => if b then ("True").toList else ("False").toList
  | .datetime y mo d h mi s us => dtChars y mo d h mi s us
  | .list xs => listIntChars xs
  | .none => ("None").toList

/-- Model of `escape_literal` (psycopg2_client.py lines 110-122): type-directed
rendering of a bound value as a SQL literal — strings single-quoted with
internal single quotes doubled, datetimes as quoted timestamp literals,
lists as array literals, `None` as `NULL`, anything else via `str()`. -/
def escape_literal : PyVal → Str
  | .str s => sq :: (pyReplace s [sq] [sq, sq] ++ [sq])
  | .datetime y mo d h mi s us =>
    sq :: (dtChars y mo d h mi s us ++ sq :: ("::TIMESTAMP").toList)
  | .list xs => ("ARRAY").toList ++ listIntChars xs
  | .none => ("NULL").toList
  | v => pyStr v

/-- The placeholder token `f"%({key})s"`. -/
def placeholderStr (k : Str) : Str :=
  '%' :: '(' :: (k ++ [')', 's'])

/-- The parameter loop of `_get_query_with_value` (lines 126-130): for each
bound parameter, if its placeholder occurs in the current query text,
replace every occurrence with the escaped literal. -/
def substParams : Str → Assoc PyVal → Str
  | q, [] => q
  | q, (k, v) :: rest =>
    let find := placeholderStr k
    substParams (if containsSub q find then pyReplace q find (escape_literal v) else q)
      rest

/-- The final unescape chain (lines 131-135): `%% -> %`, `{{ -> {`,
`}} -> }`. -/
def unescapeQuery (q : Str) : Str :=
  pyReplace (pyReplace (pyReplace q ['%', '%'] ['%']) [lbr, lbr] [lbr])
    [rbr, rbr] [rbr]

/-- Model of `_get_query_with_value(qry_str, params, conn)`. -/
def get_query_with_value (qry : Str) (params : Assoc PyVal) : Str :=
  unescapeQuery (substParams qry params)

theorem isPrefixOf_append_self (l : Str) : ∀ s : Str, l.isPrefixOf (l ++ s) = true := by
  induction l with
  | nil => intro s; simp [List.isPrefixOf]
  | cons c t ih => intro s; simp [List.isPrefixOf, ih]

theorem isPrefixOf_head_ne (find : Str) (x c : Char) (hx : find.head? = some x)
    (hne : x ≠ c) (l : Str) : find.isPrefixOf (c :: l) = false := by
  cases find with
  | nil => simp at hx
  | cons a t =>
    simp only [List.head?_cons, Option.some.injEq] at hx
    subst hx
    simp [List.isPrefixOf, hne]

theorem containsSub_mid (find : Str) (hne : find ≠ []) (a b : Str) :
    containsSub (a ++ (find ++ b)) find = true := by
  induction a with
  | nil =>
    cases find with
    | nil => exact absurd rfl hne
    | cons c t =>
      simp only [List.nil_append, List.cons_append, containsSub, List.append_eq]
      rw [show (c :: (t ++ b)) = (c :: t) ++ b from rfl,
        isPrefixOf_append_self (c :: t) b]
      rfl
  | cons c a' ih =>
    simp only [List.cons_append, containsSub, List.append_eq, ih, Bool.or_true]

theorem pyReplaceF_fuelIrrel (find repl : Str) (hne : find ≠ []) :
    ∀ (f : Nat) (s : Str) (f' : Nat), s.length ≤ f → s.length ≤ f' →
    pyReplaceF f s find repl = pyReplaceF f' s find repl := by
  intro f
  induction f with
  | zero =>
    intro s f' hf _
    have : s = [] := List.eq_nil_of_length_eq_zero (Nat.le_zero.mp hf)
    subst this
    cases f' <;> rfl
  | succ f ih =>
    intro s f' hf hf'
    cases s with
    | nil => cases f' <;> rfl
    | cons c rest =>
      cases f' with
      | zero => simp at hf'
      | succ g =>
        have hrest : rest.length ≤ f := by simp at hf; omega
        have hrest' : rest.length ≤ g := by simp at hf'; omega
        by_cases hp : (!find.isEmpty && find.isPrefixOf (c :: rest)) = true
        · have hlen : ((c :: rest).drop find.length).length ≤ f ∧
              ((c :: rest).drop find.length).length ≤ g := by
            have hfind : 1 ≤ find.length := by
              cases find with
              | nil => exact absurd rfl hne
              | cons _ _ => simp
            simp only [List.length_drop, List.length_cons]
            omega
          simp [pyReplaceF, hp, ih _ _ hlen.1 hlen.2]
        · simp [pyReplaceF, hp, ih rest g hrest hrest']

theorem pyReplaceF_pass (find repl : Str) (x : Char) (hx : find.head? = some x)
    (hne : find ≠ []) (pfx : Str) (hpfx : x ∉ pfx) :
    ∀ (s : Str) (f g : Nat), (pfx ++ s).length ≤ f → s.length ≤ g →
    pyReplaceF f (pfx ++ s) find repl = pfx ++ pyReplaceF g s find repl := by
  induction pfx with
  | nil =>
    intro s f g hf hg
    simpa using pyReplaceF_fuelIrrel find repl hne f s g (by simpa using hf) hg
  | cons c pfx' ih =>
    intro s f g hf hg
    cases f with
    | zero => simp at hf
    | succ f =>
      have hcx : x ≠ c := fun he => hpfx (he ▸ List.mem_cons_self c pfx')
      have hnp := isPrefixOf_head_ne find x c hx hcx (pfx' ++ s)
      have hf' : (pfx' ++ s).length ≤ f := by
        simp only [List.cons_append, List.length_cons, List.length_append] at hf ⊢
        omega
      have hrec := ih (fun hm => hpfx (List.mem_cons_of_mem c hm)) s f g hf' hg
      simp [pyReplaceF, hnp, hrec]

theorem pyReplaceF_head (find repl : Str) (hne : find ≠ []) :
    ∀ (s : Str) (f g : Nat), (find ++ s).length ≤ f → s.length ≤ g →
    pyReplaceF f (find ++ s) find repl = repl ++ pyReplaceF g s find repl := by
  intro s f g hf hg
  cases find with
  | nil => exact absurd rfl hne
  | cons a t =>
    cases f with
    | zero => simp at hf
    | succ f =>
      have hpre : (a :: t).isPrefixOf ((a :: t) ++ s) = true :=
        isPrefixOf_append_self (a :: t) s
      have hdrop : (((a :: t) ++ s).drop (a :: t).length) = s :=
        List.drop_left (a :: t) s
      have hlen : s.length ≤ f := by
        simp only [List.cons_append, List.length_cons, List.length_append] at hf
        omega
      have hunfold : pyReplaceF (f + 1) ((a :: t) ++ s) (a :: t) repl =
          if !(a :: t).isEmpty && (a :: t).isPrefixOf ((a :: t) ++ s) then
            repl ++ pyReplaceF f (((a :: t) ++ s).drop (a :: t).length) (a :: t) repl
          else a :: pyReplaceF f (t ++ s) (a :: t) repl := rfl
      rw [hunfold, hpre, hdrop]
      simp [pyReplaceF_fuelIrrel (a :: t) repl hne f s g hlen hg]

theorem pyReplaceF_none (find repl : Str) (x : Char) (hx : find.head? = some x) :
    ∀ (s : Str), x ∉ s → ∀ f, pyReplaceF f s find repl = s := by
  intro s
  induction s with
  | nil => intro _ f; cases f <;> rfl
  | cons c rest ih =>
    intro hm f
    cases f with
    | zero => rfl
    | succ f =>
      have hcx : x ≠ c := fun he => hm (he ▸ List.mem_cons_self c rest)
      have hnp := isPrefixOf_head_ne find x c hx hcx rest
      simp [pyReplaceF, hnp, ih (fun hq => hm (List.mem_cons_of_mem c hq)) f]

theorem pyReplace_none (find repl : Str) (x : Char) (hx : find.head? = some x)
    (s : Str) (hm : x ∉ s) : pyReplace s find repl = s :=
  pyReplaceF_none find repl x hx s hm s.length

/-- The spec's description of string escaping, stated independently of
`pyReplace`: each internal single quote is doubled, character by character. -/
def specQuoteDoubling : Str → Str
  | [] => []
  | c :: rest => (if c = sq then [sq, sq] else [c]) ++ specQuoteDoubling rest

theorem pyReplace_quote_double (s : Str) :
    pyReplace s [sq] [sq, sq] = specQuoteDoubling s := by
  show pyReplaceF s.length s [sq] [sq, sq] = _
  induction s with
  | nil => rfl
  | cons c rest ih =>
    by_cases hc : c = sq
    · subst hc
      have hpre : [sq].isPrefixOf (sq :: rest) = true := by
        simp [List.isPrefixOf]

      simp [pyReplaceF, hpre, ih, specQuoteDoubling]
    · have hbe : (sq == c) = false := beq_eq_false_iff_ne.mpr (Ne.symm hc)
      have hnp : [sq].isPrefixOf (c :: rest) = false := by
        simp [List.isPrefixOf, hbe]
      simp [pyReplaceF, hnp, ih, specQuoteDoubling, hc]

theorem unescapeQuery_clean (q : Str) (h1 : '%' ∉ q) (h2 : lbr ∉ q)
    (h3 : rbr ∉ q) : unescapeQuery q = q := by
  unfold unescapeQuery
  rw [pyReplace_none ['%', '%'] ['%'] '%' rfl q h1,
    pyReplace_none [lbr, lbr] [lbr] lbr rfl q h2,
    pyReplace_none [rbr, rbr] [rbr] rbr rfl q h3]

theorem pyReplace_not_contains (s find repl : Str)
    (h : containsSub s find = false) : pyReplace s find repl = s := by
  show pyReplaceF s.length s find repl = s
  induction s with
  | nil => rfl
  | cons c rest ih =>
    simp only [containsSub, Bool.or_eq_false_iff] at h
    simp [pyReplaceF, h.1, ih h.2]

/-- Unescaping is the identity on any text containing none of the three
escape pairs — single `%`, `{` or `}` characters survive untouched. -/
theorem unescapeQuery_no_pairs (q : Str)
    (h1 : containsSub q ['%', '%'] = false)
    (h2 : containsSub q [lbr, lbr] = false)
    (h3 : containsSub q [rbr, rbr] = false) : unescapeQuery q = q := by
  unfold unescapeQuery
  rw [pyReplace_not_contains q ['%', '%'] ['%'] h1,
    pyReplace_not_contains q [lbr, lbr] [lbr] h2,
    pyReplace_not_contains q [rbr, rbr] [rbr] h3]

theorem notMem_append_pair (c x : Char) (pre post : Str) (h1 : c ∉ pre)
    (h2 : c ∉ post) (h3 : c ≠ x) : c ∉ pre ++ x :: x :: post := by
  intro hm
  rcases List.mem_append.mp hm with h | h
  · exact h1 h
  · rcases List.mem_cons.mp h with h | h
    · exact h3 h
    · rcases List.mem_cons.mp h with h | h
      · exact h3 h
      · exact h2 h

theorem notMem_append_single (c x : Char) (pre post : Str) (h1 : c ∉ pre)
    (h2 : c ∉ post) (h3 : c ≠ x) : c ∉ pre ++ x :: post := by
  intro hm
  rcases List.mem_append.mp hm with h | h
  · exact h1 h
  · rcases List.mem_cons.mp h with h | h
    · exact h3 h
    · exact h2 h

theorem pyReplace_pct_skip (pfx rest : Str) (h1 : '%' ∉ pfx) (h2 : '%' ∉ rest) :
    pyReplace (pfx ++ '%' :: '(' :: rest) ['%', '%'] ['%'] =
      pfx ++ '%' :: '(' :: rest := by
  show pyReplaceF _ _ _ _ = _
  rw [pyReplaceF_pass ['%', '%'] ['%'] '%' rfl (by simp) pfx h1
    ('%' :: '(' :: rest) _ ('%' :: '(' :: rest).length (Nat.le_refl _)
    (Nat.le_refl _)]
  have hm : '%' ∉ '(' :: rest := by
    intro hmem
    rcases List.mem_cons.mp hmem with h | h
    · exact absurd h (by decide)
    · exact h2 h
  have hnp : (['%', '%'] : Str).isPrefixOf ('%' :: '(' :: rest) = false := by
    simp [List.isPrefixOf]
  have hnp2 : (['%', '%'] : Str).isPrefixOf ('(' :: rest) = false :=
    isPrefixOf_head_ne ['%', '%'] '%' '(' rfl (by decide) rest
  simp only [List.length_cons, pyReplaceF, hnp, Bool.and_false,
    Bool.false_eq_true, if_neg, not_false_iff]
  simp [hnp2, pyReplaceF_none ['%', '%'] ['%'] '%' rfl rest h2]

theorem pyReplace_pair_unescape (x : Char) (pfx post : Str) (h1 : x ∉ pfx)
    (h2 : x ∉ post) :
    pyReplace (pfx ++ x :: x :: post) [x, x] [x] = pfx ++ x :: post := by
  show pyReplaceF _ _ _ _ = _
  rw [pyReplaceF_pass [x, x] [x] x rfl (by simp) pfx h1
    (x :: x :: post) _ (x :: x :: post).length (Nat.le_refl _)
    (Nat.le_refl _)]
  have hpre : ([x, x] : Str).isPrefixOf (x :: x :: post) = true := by
    simpa using isPrefixOf_append_self [x, x] post
  have hunfold : pyReplaceF (x :: x :: post).length (x :: x :: post)
      [x, x] [x] =
      if !([x, x] : Str).isEmpty &&
          ([x, x] : Str).isPrefixOf (x :: x :: post) then
        [x] ++ pyReplaceF (post.length + 1)
          ((x :: x :: post).drop ([x, x] : Str).length) [x, x] [x]
      else x :: pyReplaceF (post.length + 1) (x :: post) [x, x] [x] := rfl
  rw [hunfold, hpre]
  have hdrop : (x :: x :: post).drop ([x, x] : Str).length = post := rfl
  rw [hdrop]
  have hfi := pyReplaceF_fuelIrrel [x, x] [x] (by simp) (post.length + 1)
    post post.length (Nat.le_succ _) (Nat.le_refl _)
  rw [hfi, pyReplaceF_none [x, x] [x] x rfl post h2]
  simp

/-- C7: literal substitution replaces each bound placeholder `%(name)s`
according to the value's type (strings single-quoted with internal quotes
doubled, datetimes quoted and cast to TIMESTAMP, lists as array literals,
`None` as `NULL`, other values via their default string representation,
unquoted), leaves unbound placeholders unresolved, and unescapes each of
the escaped sequences — the doubled percent and the two doubled braces —
to the single character in the final output. The escaped value may itself
contain single `%`, `{` or `}` characters (for example the repository's
own `%stat%` pattern values); the hypotheses only rule out the doubled
pairs themselves occurring in the substituted text, the exact condition
under which the trailing unescape chain is the identity on it, plus a
`%`-, `{`-, `}`-free template context around the placeholder. -/
theorem claim_C7 (k : Str) (v : PyVal) (pre post : Str)
    (hpre1 : '%' ∉ pre) (hpre2 : lbr ∉ pre) (hpre3 : rbr ∉ pre)
    (hpost1 : '%' ∉ post) (hpost2 : lbr ∉ post) (hpost3 : rbr ∉ post)
    (hk1 : '%' ∉ k) (hk2 : lbr ∉ k) (hk3 : rbr ∉ k)
    (hq1 : containsSub (pre ++ (escape_literal v ++ post)) ['%', '%'] = false)
    (hq2 : containsSub (pre ++ (escape_literal v ++ post)) [lbr, lbr] = false)
    (hq3 : containsSub (pre ++ (escape_literal v ++ post)) [rbr, rbr] = false) :
    get_query_with_value (pre ++ (placeholderStr k ++ post)) [(k, v)] =
      pre ++ (escape_literal v ++ post) ∧
    get_query_with_value (pre ++ (placeholderStr k ++ post)) [] =
      pre ++ (placeholderStr k ++ post) ∧
    get_query_with_value (pre ++ '%' :: '%' :: post) [] = pre ++ '%' :: post ∧
    get_query_with_value (pre ++ lbr :: lbr :: post) [] = pre ++ lbr :: post ∧
    get_query_with_value (pre ++ rbr :: rbr :: post) [] = pre ++ rbr :: post ∧
    (∀ s : Str, escape_literal (.str s) = sq :: (specQuoteDoubling s ++ [sq])) ∧
    escape_literal .none = ("NULL").toList ∧
    (∀ n : Int, escape_literal (.int n) = intChars n) ∧
    (∀ xs : List Int, escape_literal (.list xs) =
      ("ARRAY").toList ++ listIntChars xs) ∧
    ∀ y mo d h mi s us : Nat, escape_literal (.datetime y mo d h mi s us) =
      sq :: (dtChars y mo d h mi s us ++ sq :: ("::TIMESTAMP").toList) := by
  have hfind_ne : placeholderStr k ≠ [] := by simp [placeholderStr]
  have hfind_head : (placeholderStr k).head? = some '%' := rfl
  refine ⟨?_, ?_, ?_, ?_, ?_, ?_, rfl, fun _ => rfl, fun _ => rfl, fun _ _ _ _ _ _ _ => rfl⟩
  · show unescapeQuery (substParams _ _) = _
    have hcontains := containsSub_mid (placeholderStr k) hfind_ne pre post
    have hsubst : substParams (pre ++ (placeholderStr k ++ post)) [(k, v)] =
        pyReplace (pre ++ (placeholderStr k ++ post)) (placeholderStr k)
          (escape_literal v) := by
      simp [substParams, hcontains]
    have hrepl : pyReplace (pre ++ (placeholderStr k ++ post)) (placeholderStr k)
        (escape_literal v) = pre ++ (escape_literal v ++ post) := by
      show pyReplaceF _ _ _ _ = _
      rw [pyReplaceF_pass (placeholderStr k) (escape_literal v) '%' hfind_head
        hfind_ne pre hpre1 (placeholderStr k ++ post) _
        (placeholderStr k ++ post).length (Nat.le_refl _) (Nat.le_refl _)]
      rw [pyReplaceF_head (placeholderStr k) (escape_literal v) hfind_ne post _
        post.length (Nat.le_refl _) (Nat.le_refl _)]
      rw [pyReplaceF_none (placeholderStr k) (escape_literal v) '%' hfind_head
        post hpost1]
    rw [hsubst, hrepl]
    exact unescapeQuery_no_pairs _ hq1 hq2 hq3
  · show unescapeQuery (pre ++ (placeholderStr k ++ post)) = _
    have hshape : pre ++ (placeholderStr k ++ post) =
        pre ++ '%' :: '(' :: (k ++ ')' :: 's' :: post) := by
      simp [placeholderStr]
    have hrest : '%' ∉ k ++ ')' :: 's' :: post := by
      intro hm
      rcases List.mem_append.mp hm with h | h
      · exact hk1 h
      · rcases List.mem_cons.mp h with h | h
        · exact absurd h (by decide)
        · rcases List.mem_cons.mp h with h | h
          · exact absurd h (by decide)
          · exact hpost1 h
    have hbr : ∀ c : Char, c = lbr ∨ c = rbr →
        c ∉ pre ++ '%' :: '(' :: (k ++ ')' :: 's' :: post) := by
      intro c hc hm
      rcases List.mem_append.mp hm with h | h
      · rcases hc with hc | hc
        · exact hpre2 (hc ▸ h)
        · exact hpre3 (hc ▸ h)
      · rcases List.mem_cons.mp h with h | h
        · rcases hc with hc | hc <;> subst hc <;> revert h <;> decide
        · rcases List.mem_cons.mp h with h | h
          · rcases hc with hc | hc <;> subst hc <;> revert h <;> decide
          · rcases List.mem_append.mp h with h | h
            · rcases hc with hc | hc
              · exact hk2 (hc ▸ h)
              · exact hk3 (hc ▸ h)
            · rcases List.mem_cons.mp h with h | h
              · rcases hc with hc | hc <;> subst hc <;> revert h <;> decide
              · rcases List.mem_cons.mp h with h | h
                · rcases hc with hc | hc <;> subst hc <;> revert h <;> decide
                · rcases hc with hc | hc
                  · exact hpost2 (hc ▸ h)
                  · exact hpost3 (hc ▸ h)
    rw [hshape]
    unfold unescapeQuery
    rw [pyReplace_pct_skip pre (k ++ ')' :: 's' :: post) hpre1 hrest,
      pyReplace_none [lbr, lbr] [lbr] lbr rfl _ (hbr lbr (Or.inl rfl)),
      pyReplace_none [rbr, rbr] [rbr] rbr rfl _ (hbr rbr (Or.inr rfl))]
  · show unescapeQuery (pre ++ '%' :: '%' :: post) = _
    have hbr2 : ∀ c : Char, c = lbr ∨ c = rbr → c ∉ pre ++ '%' :: post := by
      intro c hc hm
      rcases List.mem_append.mp hm with h | h
      · rcases hc with hc | hc
        · exact hpre2 (hc ▸ h)
        · exact hpre3 (hc ▸ h)
      · rcases List.mem_cons.mp h with h | h
        · rcases hc with hc | hc <;> subst hc <;> revert h <;> decide
        · rcases hc with hc | hc
          · exact hpost2 (hc ▸ h)
          · exact hpost3 (hc ▸ h)
    unfold unescapeQuery
    rw [pyReplace_pair_unescape '%' pre post hpre1 hpost1,
      pyReplace_none [lbr, lbr] [lbr] lbr rfl _ (hbr2 lbr (Or.inl rfl)),
      pyReplace_none [rbr, rbr] [rbr] rbr rfl _ (hbr2 rbr (Or.inr rfl))]
  · show unescapeQuery (pre ++ lbr :: lbr :: post) = _
    unfold unescapeQuery
    rw [pyReplace_none ['%', '%'] ['%'] '%' rfl _
        (notMem_append_pair '%' lbr pre post hpre1 hpost1 (by decide)),
      pyReplace_pair_unescape lbr pre post hpre2 hpost2,
      pyReplace_none [rbr, rbr] [rbr] rbr rfl _
        (notMem_append_single rbr lbr pre post hpre3 hpost3 (by decide))]
  · show unescapeQuery (pre ++ rbr :: rbr :: post) = _
    unfold unescapeQuery
    rw [pyReplace_none ['%', '%'] ['%'] '%' rfl _
        (notMem_append_pair '%' rbr pre post hpre1 hpost1 (by decide)),
      pyReplace_none [lbr, lbr] [lbr] lbr rfl _
        (notMem_append_pair lbr rbr pre post hpre2 hpost2 (by decide)),
      pyReplace_pair_unescape rbr pre post hpre3 hpost3]
  · intro s
    simp [escape_literal, pyReplace_quote_double]

/-- Witness for C7: the repository's own pattern-valued parameter — the
placeholder is replaced in place by the quoted `%stat%` literal, whose
single percent signs survive the unescape chain — and a doubled left
brace in a parameterless template is unescaped to a single one. -/
theorem claim_C7_witness :
    get_query_with_value
        (("SELECT table_name FROM tbl WHERE table_name ILIKE ").toList ++
          (placeholderStr (("search_percent").toList) ++
            (" ORDER BY 1").toList))
        [(("search_percent").toList, PyVal.str (("%stat%").toList))] =
      ("SELECT table_name FROM tbl WHERE table_name ILIKE ").toList ++
        (escape_literal (PyVal.str (("%stat%").toList)) ++
          (" ORDER BY 1").toList) ∧
    get_query_with_value
        (("SELECT table_name FROM tbl WHERE table_name ILIKE ").toList ++
          lbr :: lbr :: (" ORDER BY 1").toList) [] =
      ("SELECT table_name FROM tbl WHERE table_name ILIKE ").toList ++
        lbr :: (" ORDER BY 1").toList := by
  have h := claim_C7 (("search_percent").toList)
    (PyVal.str (("%stat%").toList))
    (("SELECT table_name FROM tbl WHERE table_name ILIKE ").toList)
    ((" ORDER BY 1").toList)
    (by decide) (by decide) (by decide) (by decide) (by decide) (by decide)
    (by decide) (by decide) (by decide) (by decide) (by decide) (by decide)
  exact ⟨h.1, h.2.2.2.1⟩

/-! Session / transaction engine: `updates` (writeMany).

The driver is abstracted as an execution environment mapping the statement
text and parameters to an outcome: failure or success with an affected-row
count, an optional returned row (what `fetchone` yields — `none` models an
empty result), and an opaque effect identifier queued on the connection's
open transaction. `commit` publishes the pending effects, `rollback`
discards them. -/

/-- The two feature flags of `Psycopg2ClientSettings` used by the engine. -/
structure DbSettings where
  use_en_ko_column_alias : Bool
  use_conditional : Bool
deriving DecidableEq, Repr

/-- Outcome of executing one statement on the driver. -/
structure ExecOutcome where
  fails : Bool
  rowcount : Int
  retRow : Option (Assoc PyVal)
  effect : Nat
deriving DecidableEq, Repr

/-- The database driver, abstracted: statement text and parameters to
outcome. -/
abbrev Env := Str → Assoc PyVal → ExecOutcome

/-- A connection: the committed database state and the pending effects of
the open transaction. -/
structure Conn where
  committed : List Nat
  pending : List Nat
deriving DecidableEq, Repr

/-- Model of `conn.commit()`: publish pending effects. -/
def commitConn (c : Conn) : Conn := ⟨c.committed ++ c.pending, []⟩

/-- Model of `conn.rollback()`: discard pending effects. -/
def rollbackConn (c : Conn) : Conn := ⟨c.committed, []⟩

/-- A successfully executed statement queues its effect on the open
transaction. -/
def execEffect (c : Conn) (e : Nat) : Conn := ⟨c.committed, c.pending ++ [e]⟩

/-- Python exceptions surfaced by the embedded fragment. -/
inductive PyError where
  | keyError
  | dbError
  | attributeError
deriving DecidableEq, Repr

/-- One element of a `writeMany` batch, after
`_normalize_qry_type_params_list`: `(qry_type, params, params_out)`. -/
structure UpdateItem where
  qryType : Str
  params : Assoc PyVal
  paramsOut : Assoc PyVal
deriving DecidableEq, Repr

/-- Python `str.split` on newlines (`splitlines`-style, for feeding a
template string to the line-based conditional rewriter). -/
def splitLines : Str → List Str
  | [] => [[]]
  | c :: rest =>
    if c = '\n' then [] :: splitLines rest
    else
      match splitLines rest with
      | [] => [[c]]
      | l :: ls => (c :: l) :: ls

/-- Rejoin lines with newlines. -/
def joinLines (ls : List Str) : Str := List.intercalate ['\n'] ls

/-- The conditional-preprocessing gate appearing before each execution
(psycopg2_client.py lines 403-404): `if self.db_settings.use_conditional
and "#if" in qry_str: qry_str = get_conditional(qry_str, params)`. -/
def preprocessConditional (st : DbSettings) (qry : Str) (params : Assoc PyVal) : Str :=
  if st.use_conditional && containsSub qry (("#if").toList) then
    joinLines (get_conditional (splitLines qry) params)
  else qry

/-- The preprocessed statement's outcome for one batch item. -/
def execItem (st : DbSettings) (env : Env) (q : Str) (it : UpdateItem) : ExecOutcome :=
  env (preprocessConditional st q it.params) it.params

/-- One iteration of the `updates_by_param` loop (psycopg2_client.py lines
397-416): registry lookup (`KeyError` when absent or empty), conditional
preprocessing, execution (driver errors propagate), effect queued, then —
when `params_out` is non-empty — `row = cursor.fetchone(); row.items()`,
which raises `AttributeError` when no row was returned (`row is None`). -/
def updatesStep (st : DbSettings) (reg : Assoc Str) (env : Env)
    (it : UpdateItem) (c : Conn) : Except PyError (Int × UpdateItem) × Conn :=
  match assocLookup reg it.qryType with
  | Option.none => (.error .keyError, c)
  | some q =>
    if q.isEmpty then (.error .keyError, c)
    else if (execItem st env q it).fails then (.error .dbError, c)
    else if it.paramsOut.isEmpty then
      (.ok ((execItem st env q it).rowcount, it),
        execEffect c (execItem st env q it).effect)
    else
      match (execItem st env q it).retRow with
      | Option.none => (.error .attributeError,
          execEffect c (execItem st env q it).effect)
      | some row =>
        (.ok ((execItem st env q it).rowcount,
            { it with paramsOut := copyOut it.paramsOut row }),
          execEffect c (execItem st env q it).effect)

/-- Model of `updates_by_param(qry_type_params_list, cursor)`: run the batch items in
order on the one connection, collecting row counts and updated output
parameters; the first failure aborts the loop and propagates. -/
def updates_by_param (st : DbSettings) (reg : Assoc Str) (env : Env) :
    List UpdateItem → Conn → Except PyError (List Int × List UpdateItem) × Conn
  | [], c => (.ok ([], []), c)
  | it :: its, c =>
    match updatesStep st reg env it c with
    | (.error e, c1) => (.error e, c1)
    | (.ok (rc, it2), c1) =>
      match updates_by_param st reg env its c1 with
      | (.ok (rcs, its2), c2) => (.ok (rc :: rcs, it2 :: its2), c2)
      | (.error e, c2) => (.error e, c2)

/-- The ad hoc path of `updates` (lines 423-431): a fresh pooled connection
inside `with conn_pool.getconn() as conn:` — psycopg2's connection context
manager commits the transaction when the block exits cleanly and rolls it
back when an exception escapes, which then propagates to the caller. -/
def updatesAdHoc (st : DbSettings) (reg : Assoc Str) (env : Env)
    (items : List UpdateItem) (db : List Nat) :
    Except PyError (List Int × List UpdateItem) × List Nat :=
  match updates_by_param st reg env items ⟨db, []⟩ with
  | (.ok r, c) => (.ok r, (commitConn c).committed)
  | (.error e, c) => (.error e, (rollbackConn c).committed)

/-- The scoped path of `updates` (line 422) followed by the scope's
`__exit__` when the raised error propagates out of the `with` block
(lines 81-98): the shared connection — holding pending effects `p0` from
earlier statements of the scope plus whatever this batch queued — is rolled
back. -/
def updatesScoped (st : DbSettings) (reg : Assoc Str) (env : Env)
    (items : List UpdateItem) (db p0 : List Nat) :
    Except PyError (List Int × List UpdateItem) × Conn :=
  match updates_by_param st reg env items ⟨db, p0⟩ with
  | (.ok r, c) => (.ok r, c)
  | (.error e, c) => (.error e, rollbackConn c)

/-- Success predicate for a single batch item: key resolves to a non-empty
template, the driver does not fail, and — when output parameters are
declared — a row is returned. -/
def itemOk (st : DbSettings) (reg : Assoc Str) (env : Env) (it : UpdateItem) : Bool :=
  match assocLookup reg it.qryType with
  | Option.none => false
  | some q =>
    !q.isEmpty && !(execItem st env q it).fails &&
      (it.paramsOut.isEmpty || (execItem st env q it).retRow.isSome)

/-- Success test on `Except`. -/
def exOk {ε α : Type} : Except ε α → Bool
  | .ok _ => true
  | .error _ => false

theorem updatesStep_committed (st : DbSettings) (reg : Assoc Str) (env : Env)
    (it : UpdateItem) (c : Conn) :
    ((updatesStep st reg env it c).2).committed = c.committed := by
  unfold updatesStep
  cases assocLookup reg it.qryType with
  | none => rfl
  | some q =>
    by_cases h1 : q.isEmpty = true
    · simp [h1]
    · by_cases h2 : (execItem st env q it).fails = true
      · simp [h1, h2]
      · by_cases h3 : it.paramsOut.isEmpty = true
        · simp [h1, h2, h3, execEffect]
        · cases hr : (execItem st env q it).retRow <;>
            simp [h1, h2, h3, hr, execEffect]

theorem updatesStep_fst_const (st : DbSettings) (reg : Assoc Str) (env : Env)
    (it : UpdateItem) (c c' : Conn) :
    (updatesStep st reg env it c).1 = (updatesStep st reg env it c').1 := by
  unfold updatesStep
  cases assocLookup reg it.qryType with
  | none => rfl
  | some q =>
    by_cases h1 : q.isEmpty = true
    · simp [h1]
    · by_cases h2 : (execItem st env q it).fails = true
      · simp [h1, h2]
      · by_cases h3 : it.paramsOut.isEmpty = true
        · simp [h1, h2, h3]
        · cases hr : (execItem st env q it).retRow <;> simp [h1, h2, h3, hr]

theorem updatesStep_isOk (st : DbSettings) (reg : Assoc Str) (env : Env)
    (it : UpdateItem) (c : Conn) :
    exOk (updatesStep st reg env it c).1 = itemOk st reg env it := by
  unfold updatesStep itemOk
  cases assocLookup reg it.qryType with
  | none => rfl
  | some q =>
    by_cases h1 : q.isEmpty = true
    · simp [h1, exOk]
    · by_cases h2 : (execItem st env q it).fails = true
      · simp [h1, h2, exOk]
      · by_cases h3 : it.paramsOut.isEmpty = true
        · simp [h1, h2, h3, exOk]
        · cases hr : (execItem st env q it).retRow <;>
            simp [h1, h2, h3, hr, exOk]

theorem updates_by_param_committed (st : DbSettings) (reg : Assoc Str)
    (env : Env) (items : List UpdateItem) : ∀ c : Conn,
    ((updates_by_param st reg env items c).2).committed = c.committed := by
  induction items with
  | nil => intro c; rfl
  | cons it its ih =>
    intro c
    have hstep := updatesStep_committed st reg env it c
    simp only [updates_by_param]
    cases hs : updatesStep st reg env it c with
    | mk res c1 =>
      rw [hs] at hstep
      cases res with
      | error e => simpa using hstep
      | ok p =>
        obtain ⟨rc, it2⟩ := p
        have hrec := ih c1
        cases hr : updates_by_param st reg env its c1 with
        | mk res2 c2 =>
          rw [hr] at hrec
          simp only []
          rw [hr]
          cases res2 with
          | ok p2 =>
            obtain ⟨rcs, its2⟩ := p2
            simpa using hrec.trans hstep
          | error e => simpa using hrec.trans hstep

theorem updates_by_param_isOk (st : DbSettings) (reg : Assoc Str) (env : Env)
    (items : List UpdateItem) : ∀ c : Conn,
    exOk (updates_by_param st reg env items c).1 =
      items.all (itemOk st reg env) := by
  induction items with
  | nil => intro c; rfl
  | cons it its ih =>
    intro c
    simp only [updates_by_param]
    have hok := updatesStep_isOk st reg env it c
    cases hs : updatesStep st reg env it c with
    | mk res c1 =>
      rw [hs] at hok
      cases res with
      | error e =>
        simp only []
        simp [exOk, List.all_cons, ← hok]
      | ok p =>
        obtain ⟨rc, it2⟩ := p
        have hrec := ih c1
        cases hr : updates_by_param st reg env its c1 with
        | mk res2 c2 =>
          rw [hr] at hrec
          simp only []
          rw [hr]
          cases res2 with
          | ok p2 =>
            obtain ⟨rcs, its2⟩ := p2
            simp [exOk, List.all_cons, ← hok, ← hrec]
          | error e =>
            simp [exOk, List.all_cons, ← hok, ← hrec]

theorem updates_by_param_ok_length (st : DbSettings) (reg : Assoc Str)
    (env : Env) (items : List UpdateItem) : ∀ (c : Conn) (rcs : List Int)
    (its2 : List UpdateItem) (c2 : Conn),
    updates_by_param st reg env items c = (.ok (rcs, its2), c2) →
    rcs.length = items.length := by
  induction items with
  | nil =>
    intro c rcs its2 c2 h
    simp only [updates_by_param, Prod.mk.injEq, Except.ok.injEq] at h
    rw [← h.1.1]
    rfl
  | cons it its ih =>
    intro c rcs its2 c2 h
    simp only [updates_by_param] at h
    cases hs : updatesStep st reg env it c with
    | mk res c1 =>
      rw [hs] at h
      cases res with
      | error e => simp at h
      | ok p =>
        obtain ⟨rc, it2⟩ := p
        simp only [] at h
        cases hr : updates_by_param st reg env its c1 with
        | mk res2 c2' =>
          rw [hr] at h
          cases res2 with
          | error e => simp at h
          | ok p2 =>
            obtain ⟨rcs', its2'⟩ := p2
            simp only [Prod.mk.injEq, Except.ok.injEq] at h
            obtain ⟨⟨h1, h2⟩, h3⟩ := h
            rw [← h1]
            simp [ih c1 rcs' its2' c2' (by rw [hr])]

/-- C1: for every `writeMany` batch in which some item's execution raises —
equivalently, whose run on the shared connection ends in an error — the
whole batch is rolled back: on the ad hoc path the committed database state
is exactly the initial one and no row-count list is returned (the error
propagates instead), and on the scoped path the `__exit__` rollback likewise
leaves the committed state untouched. The run succeeds (and only then
returns a row-count list, one count per item) exactly when every item
succeeds. -/
theorem claim_C1 (st : DbSettings) (reg : Assoc Str) (env : Env)
    (items : List UpdateItem) (db p0 : List Nat) :
    (∀ e, (updates_by_param st reg env items ⟨db, []⟩).1 = .error e →
      (updatesAdHoc st reg env items db).2 = db ∧
      (updatesAdHoc st reg env items db).1 = .error e) ∧
    exOk (updates_by_param st reg env items ⟨db, []⟩).1 =
      items.all (itemOk st reg env) ∧
    (∀ rcs its2, (updates_by_param st reg env items ⟨db, []⟩).1 =
        .ok (rcs, its2) → rcs.length = items.length) ∧
    ∀ e, (updates_by_param st reg env items ⟨db, p0⟩).1 = .error e →
      ((updatesScoped st reg env items db p0).2).committed = db := by
  refine ⟨?_, updates_by_param_isOk st reg env items ⟨db, []⟩, ?_, ?_⟩
  · intro e he
    unfold updatesAdHoc
    cases hrun : updates_by_param st reg env items ⟨db, []⟩ with
    | mk res c =>
      rw [hrun] at he
      simp only [] at he
      have hcom := updates_by_param_committed st reg env items ⟨db, []⟩
      rw [hrun] at hcom
      simp only [] at hcom
      subst he
      constructor <;> simp [rollbackConn, hcom]
  · intro rcs its2 h
    cases hrun : updates_by_param st reg env items ⟨db, []⟩ with
    | mk res c =>
      rw [hrun] at h
      simp only [] at h
      exact updates_by_param_ok_length st reg env items ⟨db, []⟩ rcs its2 c
        (by rw [hrun, h])
  · intro e he
    unfold updatesScoped
    cases hrun : updates_by_param st reg env items ⟨db, p0⟩ with
    | mk res c =>
      rw [hrun] at he
      simp only [] at he
      have hcom := updates_by_param_committed st reg env items ⟨db, p0⟩
      rw [hrun] at hcom
      simp only [] at hcom
      subst he
      simp [rollbackConn, hcom]

/-- Concrete registry for the batch witnesses: one good statement, one whose
execution the driver rejects. -/
def regW : Assoc Str :=
  [(("q1").toList, ("UPDATE A").toList), (("q2").toList, ("BOOM").toList)]

/-- Concrete driver: fails exactly on the `BOOM` statement. -/
def envW : Env := fun q _ =>
  if q = ("BOOM").toList then ⟨true, 0, Option.none, 0⟩
  else ⟨false, 1, Option.none, 1⟩

/-- A two-item batch whose second item fails. -/
def itemsW : List UpdateItem :=
  [⟨("q1").toList, [], []⟩, ⟨("q2").toList, [], []⟩]

/-- Witness for C1: the batch `[validWrite, invalidWrite]` on a database
with committed state `[42]` ends with the same committed state (the valid
write's queued effect is rolled back) and an error, not a row-count list. -/
theorem claim_C1_witness :
    (updatesAdHoc ⟨false, false⟩ regW envW itemsW [42]).2 = [42] ∧
    (updatesAdHoc ⟨false, false⟩ regW envW itemsW [42]).1 =
      .error .dbError :=
  (claim_C1 ⟨false, false⟩ regW envW itemsW [42] []).1 .dbError rfl

/-- Concrete driver for C9: succeeds but returns no row
(`cursor.fetchone()` yields `None`). -/
def envW9 : Env := fun _ _ => ⟨false, 1, Option.none, 5⟩

/-- C9 (code bug evidence): a `writeMany` item that pre-declares a
non-empty `outParams` while its executed statement returns no row does NOT
complete normally — `updates_by_param` does `row = cursor.fetchone()`
followed by `row.items()`, which raises `AttributeError` on `None`, so no
row count is reported and `outParams` handling aborts the batch. -/
theorem claim_C9 :
    (updates_by_param ⟨false, false⟩ regW envW9
        [⟨("q1").toList, [], [(("user_name").toList, PyVal.str [])]⟩]
        ⟨[], []⟩).1 = .error .attributeError := rfl

/-! Session exit cleanup: `__exit__` and the ad hoc `finally` blocks.

`__exit__` (psycopg2_client.py lines 81-98) commits or rolls back in a
`try`, then in `finally` closes the cursor and only afterwards calls
`putconn`. Python semantics: an exception raised inside the `finally`
block propagates immediately — the remaining statements of the block are
skipped and the new exception replaces both any body exception and the
caller's original in-flight exception. The ad hoc read path (lines
244-259) has the same `cursor.close(); putconn(conn)` ordering in its
`finally`. Failures of the driver calls are injected through the boolean
flags. -/

/-- Exceptions of the cleanup model: a failing `commit`, `rollback` or
`cursor.close`, and the caller's original in-flight exception. -/
inductive CleanupErr where
  | commitErr
  | rollbackErr
  | closeErr
  | origErr
deriving DecidableEq, Repr

/-- What a session exit leaves behind: the exception that propagates out
(if any), whether the cursor was closed, whether the connection was
returned to the pool. -/
structure ExitResult where
  raised : Option CleanupErr
  cursorClosed : Bool
  released : Bool
deriving DecidableEq, Repr

/-- Model of `__exit__(exc_type, exc_value, traceback)` of `Psycopg2Client` with
failure injection: the try-body commits (no exception) or rolls back
(exception present), either of which may raise; the finally block closes
the cursor — if that raises, the close error propagates and `putconn` is
skipped — then releases the connection. `__exit__` returns falsy, so with
a successful cleanup the original exception keeps propagating. -/
def exitScope (excPresent commitFails rollbackFails closeFails : Bool) : ExitResult :=
  let bodyErr : Option CleanupErr :=
    if excPresent then
      (if rollbackFails then some .rollbackErr else Option.none)
    else
      (if commitFails then some .commitErr else Option.none)
  if closeFails then
    { raised := some .closeErr, cursorClosed := false, released := false }
  else
    { raised :=
        match bodyErr with
        | some e => some e
        | Option.none => if excPresent then some .origErr else Option.none,
      cursorClosed := true, released := true }

/-- The `finally` block of the ad hoc read path (lines 257-259):
`cursor.close(); conn_pool.putconn(conn)` run after a body that may have
raised `bodyErr`; a failing close masks the body error and skips the
release. -/
def adHocCleanup (bodyErr : Option CleanupErr) (closeFails : Bool) : ExitResult :=
  if closeFails then
    { raised := some .closeErr, cursorClosed := false, released := false }
  else
    { raised := bodyErr, cursorClosed := true, released := true }

/-- Counterexample to C4 as stated: when `cursor.close()` raises during a
clean scope exit, the connection is NOT released ( `putconn` is skipped),
and when it raises while an original error is propagating, the close error
replaces (masks) the original in both the scoped and the ad hoc cleanup. -/
theorem claim_C4_counterexample :
    (exitScope false false false true).released = false ∧
    (exitScope true false false true).raised = some CleanupErr.closeErr ∧
    (adHocCleanup (some CleanupErr.origErr) true).raised =
      some CleanupErr.closeErr ∧
    (adHocCleanup (some CleanupErr.origErr) true).released = false := by
  decide

/-- C4 as amended: commit/rollback is chosen by the exit path and cleanup
is attempted on every path, and the connection is released exactly when
closing the cursor does not itself raise; if the close raises, the release
is skipped and the close error is what propagates, replacing any original
error; when the close succeeds, the original/body error propagates
unmasked. -/
theorem claim_C4 (excPresent commitFails rollbackFails closeFails : Bool)
    (bodyErr : Option CleanupErr) :
    (exitScope excPresent commitFails rollbackFails closeFails).released =
      !closeFails ∧
    (adHocCleanup bodyErr closeFails).released = !closeFails ∧
    (closeFails = true →
      (exitScope excPresent commitFails rollbackFails closeFails).raised =
        some CleanupErr.closeErr ∧
      (adHocCleanup bodyErr closeFails).raised = some CleanupErr.closeErr) ∧
    (closeFails = false → (adHocCleanup bodyErr closeFails).raised = bodyErr) := by
  cases excPresent <;> cases commitFails <;> cases rollbackFails <;>
    cases closeFails <;> simp [exitScope, adHocCleanup]

/-- Witness for C4 (amended): a clean body with a failing cursor close
skips the release; a succeeding close releases and propagates the body
error unchanged. -/
theorem claim_C4_witness :
    (exitScope false false false true).released = !true ∧
    (adHocCleanup (some CleanupErr.origErr) false).raised =
      some CleanupErr.origErr := by
  have h1 := claim_C4 false false false true (some CleanupErr.origErr)
  have h2 := claim_C4 false false false false (some CleanupErr.origErr)
  exact ⟨h1.1, h2.2.2.2 rfl⟩

/-! Streamer: the partial-fetch CSV generator `read_partial_to_csv_by_param`.

`read_partial_to_csv_by_param` (psycopg2_client.py lines 304-343) declares
a named server-side cursor, then loops: `FETCH row_count_partial`, break on
an empty fetch, serialize the page with `csv.DictWriter` (header written
only when `is_second` is still false), and yield the text encoded as
`utf-8-sig`. The result set behind the cursor is modelled as the list of
its rows; a fetch of size n takes the next n rows. -/

/-- A result-set row for the streamer: column name to rendered value. -/
abbrev CsvRow := List (Str × Str)

/-- One yielded page: its optional header (the column names of the page's
first row) and its data rows. -/
structure Chunk where
  header : Option (List Str)
  data : List CsvRow
deriving DecidableEq, Repr

/-- The fetch loop: take a page of `n` rows; an empty page terminates the
stream; otherwise emit the page (with a header exactly when it is the
first) and continue after it. The fuel is the remaining row count, enough
because every iteration consumes at least one row. -/
def fetchChunksF (n : Nat) : Nat → Bool → List CsvRow → List Chunk
  | 0, _, _ => []
  | f + 1, isSecond, rows =>
    match rows.take n with
    | [] => []
    | r :: rs =>
      ⟨if isSecond then Option.none else some (r.map Prod.fst), r :: rs⟩ ::
        fetchChunksF n f true (rows.drop n)

/-- The streamer's pages for a result set of `rows`, fetched `n` at a
time. -/
def streamChunks (n : Nat) (rows : List CsvRow) : List Chunk :=
  fetchChunksF n rows.length false rows

/-- Double the double quotes of a quoted CSV field. -/
def doubleQuotes : Str → Str
  | [] => []
  | c :: r => (if c = dq then [dq, dq] else [c]) ++ doubleQuotes r

/-- One CSV field, quoted when it contains a delimiter, quote or line
break (the `csv` module's minimal quoting). -/
def csvField (s : Str) : Str :=
  if s.any (fun c => c = ',' || c = dq || c = '\n' || c = Char.ofNat 13) then
    dq :: (doubleQuotes s ++ [dq])
  else s

/-- One CSV record with the writer's default `\r\n` terminator. -/
def csvLine (fields : List Str) : Str :=
  List.intercalate [','] (fields.map csvField) ++ [Char.ofNat 13, '\n']

/-- The text of one yielded page: optional header line then the data
rows. -/
def csvOfChunk (ch : Chunk) : Str :=
  (match ch.header with
   | some hs => csvLine hs
   | Option.none => []) ++
    (ch.data.map (fun r => csvLine (r.map Prod.snd))).flatten

/-- UTF-8 encoding of one character. -/
def utf8Char (c : Char) : List Nat :=
  let n := c.toNat
  if n < 128 then [n]
  else if n < 2048 then [192 + n / 64, 128 + n % 64]
  else if n < 65536 then [224 + n / 4096, 128 + (n / 64) % 64, 128 + n % 64]
  else [240 + n / 262144, 128 + (n / 4096) % 64, 128 + (n / 64) % 64,
    128 + n % 64]

/-- Python `text.encode("utf-8-sig")`: the UTF-8 byte-order mark
`EF BB BF` followed by the UTF-8 bytes of the text. -/
def encodeUtf8Sig (s : Str) : List Nat :=
  0xEF :: 0xBB :: 0xBF :: (s.map utf8Char).flatten

/-- The byte strings yielded by the streamer: every page is serialized and
encoded with `utf-8-sig` inside the loop (line 343). -/
def streamCsvBytes (n : Nat) (rows : List CsvRow) : List (List Nat) :=
  (streamChunks n rows).map (fun ch => encodeUtf8Sig (csvOfChunk ch))

/-- Page sizes of a result set of `len` rows fetched `n` at a time. -/
def chunkLens : Nat → Nat → Nat → List Nat
  | 0, _, _ => []
  | f + 1, len, n => if len = 0 then [] else min n len :: chunkLens f (len - n) n

/-- Header-presence pattern of the pages. -/
def chunkHdrs (n : Nat) : Nat → Bool → Nat → List Bool
  | 0, _, _ => []
  | f + 1, b, len => if len = 0 then [] else (!b) :: chunkHdrs n f true (len - n)

theorem take_eq_nil_rows (n : Nat) (hn : 0 < n) (rows : List CsvRow)
    (htake : rows.take n = []) : rows = [] := by
  cases rows with
  | nil => rfl
  | cons r rs =>
    cases n with
    | zero => exact absurd hn (by simp)
    | succ m => simp [List.take] at htake

theorem fetchChunks_drop_len (n : Nat) (f : Nat) (rows : List CsvRow)
    (hn : 0 < n) (hne : rows ≠ []) (h : rows.length ≤ f + 1) :
    (rows.drop n).length ≤ f := by
  have h1 : 1 ≤ rows.length := by
    cases rows with
    | nil => exact absurd rfl hne
    | cons r rs => simp
  simp only [List.length_drop]
  omega

theorem fetchChunks_data (n : Nat) (hn : 0 < n) :
    ∀ (f : Nat) (b : Bool) (rows : List CsvRow), rows.length ≤ f →
    ((fetchChunksF n f b rows).map Chunk.data).flatten = rows := by
  intro f
  induction f with
  | zero =>
    intro b rows h
    have : rows = [] := List.eq_nil_of_length_eq_zero (Nat.le_zero.mp h)
    subst this
    rfl
  | succ f ih =>
    intro b rows h
    cases htake : rows.take n with
    | nil =>
      have hrows := take_eq_nil_rows n hn rows htake
      subst hrows
      simp [fetchChunksF, htake]
    | cons r rs =>
      have hne : rows ≠ [] := by
        intro he
        rw [he] at htake
        simp at htake
      simp only [fetchChunksF, htake, List.map_cons, List.flatten_cons]
      rw [ih true (rows.drop n) (fetchChunks_drop_len n f rows hn hne h)]
      rw [← htake, List.take_append_drop]

theorem fetchChunks_lens (n : Nat) (hn : 0 < n) :
    ∀ (f : Nat) (b : Bool) (rows : List CsvRow), rows.length ≤ f →
    (fetchChunksF n f b rows).map (fun ch => ch.data.length) =
      chunkLens f rows.length n := by
  intro f
  induction f with
  | zero =>
    intro b rows h
    have : rows = [] := List.eq_nil_of_length_eq_zero (Nat.le_zero.mp h)
    subst this
    rfl
  | succ f ih =>
    intro b rows h
    cases htake : rows.take n with
    | nil =>
      have hrows := take_eq_nil_rows n hn rows htake
      subst hrows
      simp [fetchChunksF, htake, chunkLens]
    | cons r rs =>
      have hne : rows ≠ [] := by
        intro he
        rw [he] at htake
        simp at htake
      have hlen0 : rows.length ≠ 0 := by
        intro he
        exact hne (List.eq_nil_of_length_eq_zero he)
      have hcnt : (r :: rs).length = min n rows.length := by
        rw [← htake, List.length_take]
      simp only [fetchChunksF, htake, List.map_cons]
      rw [ih true (rows.drop n) (fetchChunks_drop_len n f rows hn hne h)]
      simp [chunkLens, hlen0, hcnt, List.length_drop]

theorem fetchChunks_hdrs (n : Nat) (hn : 0 < n) :
    ∀ (f : Nat) (b : Bool) (rows : List CsvRow), rows.length ≤ f →
    (fetchChunksF n f b rows).map (fun ch => ch.header.isSome) =
      chunkHdrs n f b rows.length := by
  intro f
  induction f with
  | zero =>
    intro b rows h
    have : rows = [] := List.eq_nil_of_length_eq_zero (Nat.le_zero.mp h)
    subst this
    rfl
  | succ f ih =>
    intro b rows h
    cases htake : rows.take n with
    | nil =>
      have hrows := take_eq_nil_rows n hn rows htake
      subst hrows
      simp [fetchChunksF, htake, chunkHdrs]
    | cons r rs =>
      have hne : rows ≠ [] := by
        intro he
        rw [he] at htake
        simp at htake
      have hlen0 : rows.length ≠ 0 := by
        intro he
        exact hne (List.eq_nil_of_length_eq_zero he)
      simp only [fetchChunksF, htake, List.map_cons]
      rw [ih true (rows.drop n) (fetchChunks_drop_len n f rows hn hne h)]
      simp only [chunkHdrs, List.length_drop]
      cases b <;> simp [hlen0]

/-- C8: a 250-row result set streamed with page size 100 yields exactly 3
pages of 100, 100 and 50 data rows, the header is present only in the
first page, and the concatenation of the data rows over all pages is the
full (non-paginated) result set; the loop stops at the first empty fetch,
so no further page follows. -/
theorem claim_C8 (rows : List CsvRow) (h : rows.length = 250) :
    (streamChunks 100 rows).map (fun ch => ch.data.length) =
      [100, 100, 50] ∧
    (streamChunks 100 rows).map (fun ch => ch.header.isSome) =
      [true, false, false] ∧
    ((streamChunks 100 rows).map Chunk.data).flatten = rows := by
  refine ⟨?_, ?_, fetchChunks_data 100 (by decide) rows.length false rows
    (Nat.le_refl _)⟩
  · show (fetchChunksF 100 rows.length false rows).map _ = _
    rw [fetchChunks_lens 100 (by decide) rows.length false rows (Nat.le_refl _), h]
    decide
  · show (fetchChunksF 100 rows.length false rows).map _ = _
    rw [fetchChunks_hdrs 100 (by decide) rows.length false rows (Nat.le_refl _), h]
    decide

/-- A concrete 250-row result set with one column `c`. -/
def rows250 : List CsvRow :=
  (List.range 250).map (fun i => [(("c").toList, Nat.toDigits 10 i)])

/-- Witness for C8 on the concrete 250-row result set. -/
theorem claim_C8_witness :
    (streamChunks 100 rows250).map (fun ch => ch.data.length) =
      [100, 100, 50] ∧
    (streamChunks 100 rows250).map (fun ch => ch.header.isSome) =
      [true, false, false] ∧
    ((streamChunks 100 rows250).map Chunk.data).flatten = rows250 :=
  claim_C8 rows250 (by simp [rows250])

/-- C10: every byte string the streamer yields — not only the first — is
encoded with `utf-8-sig`, hence begins with the BOM bytes `EF BB BF`; a
consumer concatenating two or more chunks therefore sees a BOM embedded at
a positive offset, not a single leading BOM. -/
theorem claim_C10 (n : Nat) (rows : List CsvRow) :
    (∀ b ∈ streamCsvBytes n rows,
      b.take 3 = [0xEF, 0xBB, 0xBF]) ∧
    (2 ≤ (streamCsvBytes n rows).length →
      ∃ i, 0 < i ∧
        ((streamCsvBytes n rows).flatten.drop i).take 3 =
          [0xEF, 0xBB, 0xBF]) := by
  constructor
  · intro b hb
    rcases List.mem_map.mp hb with ⟨ch, _, hbe⟩
    rw [← hbe]
    rfl
  · intro hlen
    cases hbytes : streamCsvBytes n rows with
    | nil => rw [hbytes] at hlen; simp at hlen
    | cons b1 tail =>
      cases tail with
      | nil => rw [hbytes] at hlen; simp at hlen
      | cons b2 rest =>
        have hmem2 : b2 ∈ streamCsvBytes n rows := by
          rw [hbytes]
          exact List.mem_cons_of_mem _ (List.mem_cons_self _ _)
        rcases List.mem_map.mp hmem2 with ⟨ch2, _, hbe2⟩
        have hmem1 : b1 ∈ streamCsvBytes n rows := by
          rw [hbytes]
          exact List.mem_cons_self _ _
        rcases List.mem_map.mp hmem1 with ⟨ch1, _, hbe1⟩
        refine ⟨b1.length, ?_, ?_⟩
        · rw [← hbe1]
          simp [encodeUtf8Sig]
        · rw [List.flatten_cons, List.drop_left, List.flatten_cons, ← hbe2]
          rfl

/-- A two-row result set for the C10 witness. -/
def rowsW10 : List CsvRow :=
  [[(("c").toList, ("a").toList)], [(("c").toList, ("b").toList)]]

/-- Witness for C10: with page size 1 and two rows there are two chunks;
the first chunk starts with the BOM and a second BOM sits at a positive
offset of the concatenated stream. -/
theorem claim_C10_witness :
    ((streamCsvBytes 1 rowsW10).headD []).take 3 =
      [0xEF, 0xBB, 0xBF] ∧
    ∃ i, 0 < i ∧
      ((streamCsvBytes 1 rowsW10).flatten.drop i).take 3 =
        [0xEF, 0xBB, 0xBF] :=
  ⟨(claim_C10 1 rowsW10).1 ((streamCsvBytes 1 rowsW10).headD [])
      (by decide),
    (claim_C10 1 rowsW10).2 (by decide)⟩

/-! Registry lookups: the `KeyNotFoundError` behaviour. -/

/-- The registry lookup of `read_rows_by_param` (lines 209-211, the shared
path of readMany/readOne) and of `updates_by_param` (lines 400-402):
`qry_str = qry_dic.get(qry_type)` then `if not qry_str: raise
KeyError(f"{qry_type} not exists")`. -/
def lookupQry (reg : Assoc Str) (k : Str) : Except PyError Str :=
  match assocLookup reg k with
  | Option.none => .error .keyError
  | some q => if q.isEmpty then .error .keyError else .ok q

/-- Python `str()` of an optional template as interpolated by an f-string:
a missing value renders as the text `None`. -/
def pyOptStr (o : Option Str) : Str :=
  match o with
  | some s => s
  | Option.none => ("None").toList

/-- Model of line 316 of `read_partial_to_csv_by_param`:
`qry_str = f"DECLARE {cursor_name} CURSOR FOR {qry_dic.get(qry_type)}"` —
with no absence check, so a missing key interpolates `None` into the
statement text that the streamer then executes. -/
def streamDeclareQry (reg : Assoc Str) (k : Str) : Str :=
  ("DECLARE cur_partial CURSOR FOR ").toList ++ pyOptStr (assocLookup reg k)

/-- Counterexample to C3 as stated: with a registry not containing the key
`missing`, the partial-fetch streamer does not raise a KeyError before
execution — it builds the invalid statement
`DECLARE cur_partial CURSOR FOR None` and proceeds to execute it. -/
theorem claim_C3_counterexample :
    assocLookup regW (("missing").toList) = Option.none ∧
    streamDeclareQry regW (("missing").toList) =
      ("DECLARE cur_partial CURSOR FOR None").toList := by
  decide

/-- C3 as amended: `readMany`/`readOne` (via `read_rows_by_param`'s lookup)
and `writeMany`/`writeOne` (via `updates_by_param`) fail with a KeyError on
a key absent from the registry, before any statement executes (the
connection state is untouched); the partial-fetch streamer, however,
performs no such check — it interpolates `None` into its DECLARE statement
and goes on to execute that invalid template. -/
theorem claim_C3 (reg : Assoc Str) (k : Str) (st : DbSettings) (env : Env)
    (ps po : Assoc PyVal) (rest : List UpdateItem) (c : Conn)
    (h : assocLookup reg k = Option.none) :
    lookupQry reg k = .error .keyError ∧
    (updates_by_param st reg env (⟨k, ps, po⟩ :: rest) c).1 =
      .error .keyError ∧
    (updates_by_param st reg env (⟨k, ps, po⟩ :: rest) c).2 = c ∧
    streamDeclareQry reg k =
      ("DECLARE cur_partial CURSOR FOR ").toList ++ ("None").toList := by
  have hstep : updatesStep st reg env ⟨k, ps, po⟩ c = (.error .keyError, c) := by
    simp [updatesStep, h]
  refine ⟨by simp [lookupQry, h], ?_, ?_, by simp [streamDeclareQry, pyOptStr, h]⟩
  · simp only [updates_by_param, hstep]
  · simp only [updates_by_param, hstep]

/-- Witness for C3 (amended) at the concrete registry and the absent key
`missing`. -/
theorem claim_C3_witness :
    lookupQry regW (("missing").toList) = .error .keyError ∧
    (updates_by_param ⟨false, false⟩ regW envW
        [⟨("missing").toList, [], []⟩] ⟨[], []⟩).1 = .error .keyError ∧
    (updates_by_param ⟨false, false⟩ regW envW
        [⟨("missing").toList, [], []⟩] ⟨[], []⟩).2 = ⟨[], []⟩ ∧
    streamDeclareQry regW (("missing").toList) =
      ("DECLARE cur_partial CURSOR FOR ").toList ++ ("None").toList :=
  claim_C3 regW (("missing").toList) ⟨false, false⟩ envW [] [] [] ⟨[], []⟩
    (by decide)

end PgClient
